import Mathlib

/-!
# Verification of the DMS fitness explorer core

Shallow embedding of the in-memory categorical index / aggregation engine
(`src/js/data-processor.js`) and the state coordinator with its URL-hash
persistence (`src/js/app.js`).

Conventions of the embedding:
* JS strings are `List Char`; JS numbers holding fitness scores are `ℚ`
  (every value reaching them is a finite parsed decimal).
* The JS value `undefined` produced by indexing a string past its end is
  `Option Char`'s `none`; a JS object keyed by the strings of such values is
  keyed here by `Option Char` (`none` plays the object key "undefined").
* A JS `Set` of row ids is a `Finset ℕ`; the `null` that the source uses for
  "no filter / all rows" is `Option.none` around it.
-/

namespace DataProcessor

/-- Source `VARIABLE_POSITIONS`: variable positions in the 25-AA sequence (0-indexed). -/
def VARIABLE_POSITIONS : List Nat := [9, 12, 13, 16]

/-- Source `AA_ORDER`: biochemical amino-acid ordering (hydrophobic, aromatic, polar,
positive, negative, special, stop). -/
def AA_ORDER : List Char :=
  ['G', 'A', 'V', 'L', 'I', 'M',
   'F', 'W', 'Y',
   'S', 'T', 'N', 'Q', 'C',
   'K', 'R', 'H',
   'D', 'E',
   'P',
   '*']

/-- One raw input row, as consumed by `init`.  `proteinSeq = []` models a
missing or empty `row['Protein Seq']` (both falsy in the source's guard);
`slope = none` models a missing `row['Slope']` or one whose `parseFloat`
is `NaN` (both dropped by the source); `rank = none` models a `Rank` field
whose `parseInt` is `NaN`. -/
structure RawRow where
  proteinSeq : List Char
  slope : Option ℚ
  rank : Option Int

/-- A retained row of the row store (`sequences` array entries). -/
structure SeqRow where
  p9 : List Char
  p12 : List Char
  p13 : List Char
  p16 : List Char
  slope : ℚ
  rank : Int
  seq : List Char
  hasStop : Bool
deriving DecidableEq, Inhabited

/-- JS string indexing `seq[pos]`: the character, or `undefined` (`none`)
past the end of the string. -/
def keyAt (seq : List Char) (pos : Nat) : Option Char := seq.get? pos

/-- The stored per-position value `seq[pos] || ''`: a one-character string,
or the empty string past the end of the sequence. -/
def posVal (seq : List Char) (pos : Nat) : List Char :=
  match seq.get? pos with
  | some c => [c]
  | none => []

/-- The body of the retention loop of `init` for `rawData[i]`: `none` when the
row is dropped (empty/missing sequence, or missing/NaN slope), otherwise the
retained `sequences` entry.  `rank` is `parseInt(row['Rank']) || (i + 1)`:
both a failed parse and a parsed `0` are falsy and fall back to `i + 1`. -/
def parseRow (i : Nat) (row : RawRow) : Option SeqRow :=
  if row.proteinSeq = [] then none
  else
    match row.slope with
    | none => none
    | some sl =>
      some
        { p9 := posVal row.proteinSeq 9
          p12 := posVal row.proteinSeq 12
          p13 := posVal row.proteinSeq 13
          p16 := posVal row.proteinSeq 16
          slope := sl
          rank :=
            match row.rank with
            | some r => if r = 0 then (i + 1 : Int) else r
            | none => (i + 1 : Int)
          seq := row.proteinSeq
          hasStop :=
            posVal row.proteinSeq 9 = ['*'] ∨ posVal row.proteinSeq 12 = ['*'] ∨
              posVal row.proteinSeq 13 = ['*'] ∨ posVal row.proteinSeq 16 = ['*'] }

/-- The `sequences` array after `init rawData`: rows retained in input order;
row ids are positions in this list (`idx = sequences.length` at push time). -/
def sequences (rawData : List RawRow) : List SeqRow :=
  rawData.enum.filterMap fun p => parseRow p.1 p.2

/-- Source `totalCount` after `init`. -/
def totalCount (seqs : List SeqRow) : Nat := seqs.length

/-- Source `maxSlope` after `init`, starting from the module initialisation value `0`
and updated by `if (slope > maxSlope) maxSlope = slope` per retained row. -/
def maxSlope (seqs : List SeqRow) : ℚ :=
  seqs.foldl (fun m s => if s.slope > m then s.slope else m) 0

/-- Source `minSlope` after `init`, starting from the module initialisation value
`Infinity` (modelled as `none`, which compares greater than everything) and
updated by `if (slope < minSlope) minSlope = slope` per retained row. -/
def minSlope (seqs : List SeqRow) : Option ℚ :=
  seqs.foldl
    (fun m s =>
      match m with
      | none => some s.slope
      | some v => if s.slope < v then some s.slope else some v)
    none

/-- Source `indexByPosition[pos][k]`: the bucket for key `k` at `pos`.  The source
pushes each retained row's id into the bucket of its key `seq[pos]` in load
order, so the bucket for `k` is exactly the ascending list of ids whose
sequence has key `k` at `pos` (`k = none` is the JS object key `"undefined"`
created by rows whose sequence is shorter than `pos`). -/
def bucket (seqs : List SeqRow) (pos : Nat) (k : Option Char) : List Nat :=
  (List.range seqs.length).filter fun i => keyAt ((seqs.getD i default).seq) pos = k

/-- Source `aasAtPosition[pos]`: `AA_ORDER` filtered to the values that own a bucket
(`Object.keys(indexByPosition[pos])` contains a value iff some row was pushed
for it, i.e. iff its bucket is nonempty). -/
def aasAtPosition (seqs : List SeqRow) (pos : Nat) : List Char :=
  AA_ORDER.filter fun aa => bucket seqs pos (some aa) ≠ []

/-- The JS object access `indexByPosition[pos][v]` for a filter string `v`,
followed by the source's falsiness test `if (!matching)`: a one-character
string addresses the bucket of that character, the string `"undefined"`
addresses the bucket of too-short sequences, any other string addresses no
key; a key is present in the object iff its bucket is nonempty. -/
def lookupBucket (seqs : List SeqRow) (pos : Nat) (v : List Char) : Option (List Nat) :=
  let k : Option (Option Char) :=
    if v = "undefined".data then some none
    else
      match v with
      | [c] => some (some c)
      | _ => none
  match k with
  | none => none
  | some key =>
    match bucket seqs pos key with
    | [] => none
    | l => some l

end DataProcessor

namespace App

/-- The coordinator's filter map `state.filters`: an object with exactly the
keys 9, 12, 13, 16, each holding a selected value or `null`. -/
structure Filters where
  f9 : Option (List Char)
  f12 : Option (List Char)
  f13 : Option (List Char)
  f16 : Option (List Char)
deriving DecidableEq

/-- Reading `filters[pos]`: reading any other key of the object gives `undefined`,
which the engine's `aa == null` guard treats like `null`. -/
def Filters.get (f : Filters) : Nat → Option (List Char)
  | 9 => f.f9
  | 12 => f.f12
  | 13 => f.f13
  | 16 => f.f16
  | _ => none

/-- Writing `filters[pos] = v` for the four recognised positions (every caller in the
source writes only those keys). -/
def Filters.set (f : Filters) (pos : Nat) (v : Option (List Char)) : Filters :=
  if pos = 9 then { f with f9 := v }
  else if pos = 12 then { f with f12 := v }
  else if pos = 13 then { f with f13 := v }
  else if pos = 16 then { f with f16 := v }
  else f

end App

namespace DataProcessor

open App

/-- The loop of `getFilteredIndices` over the remaining positions, carrying
the running `result` (`none` = the initial `null`, "all rows").  A constrained
position whose value owns no bucket returns the empty set at once; otherwise
the bucket seeds or intersects the running result. -/
def filterLoop (seqs : List SeqRow) (f : Filters) :
    List Nat → Option (Finset Nat) → Option (Finset Nat)
  | [], result => result
  | pos :: rest, result =>
    match f.get pos with
    | none => filterLoop seqs f rest result
    | some v =>
      match lookupBucket seqs pos v with
      | none => some ∅
      | some matching =>
        match result with
        | none => filterLoop seqs f rest (some matching.toFinset)
        | some r => filterLoop seqs f rest (some (matching.toFinset ∩ r))

/-- Source `getFilteredIndices(filters)`: `none` means "all rows" (the source's
`null`), `some s` a concrete set of row ids. -/
def getFilteredIndices (seqs : List SeqRow) (f : Filters) : Option (Finset Nat) :=
  filterLoop seqs f VARIABLE_POSITIONS none

/-- One value's entry of `computeConditionalMarginals`.  `stdSq` is the square
of the reported `std`: the source stores `Math.sqrt(Math.max(0, variance))`
with `variance = sumSq/count - mean*mean`; keeping the square keeps the record
in `ℚ`.  `values` is the sorted value array the source stores. -/
structure MarginalStat where
  mean : ℚ
  median : ℚ
  stdSq : ℚ
  count : Nat
  values : List ℚ
deriving DecidableEq

/-- The restriction `if (filteredIndices !== null && !filteredIndices.has(idx)) continue`
applied to a bucket. -/
def restrictBucket (filtered : Option (Finset Nat)) (aaIndices : List Nat) : List Nat :=
  aaIndices.filter fun i =>
    match filtered with
    | none => true
    | some s => i ∈ s

/-- The loop body of `computeConditionalMarginals` for one value `aa`: the
fitness statistics over the value's bucket restricted to the matching set, or
`none` when the restricted count is zero (the value is omitted). -/
def marginalFor (seqs : List SeqRow) (pos : Nat) (filtered : Option (Finset Nat))
    (aa : Char) : Option (Char × MarginalStat) :=
    let kept := restrictBucket filtered (bucket seqs pos (some aa))
    let values := kept.map fun i => (seqs.getD i default).slope
    let count := values.length
    if count = 0 then none
    else
      let sum := values.sum
      let sumSq := (values.map fun x => x * x).sum
      let mean := sum / count
      let variance := sumSq / count - mean * mean
      let sorted := values.mergeSort fun a b => decide (a ≤ b)
      let median :=
        if count % 2 = 0 then (sorted.getD (count / 2 - 1) 0 + sorted.getD (count / 2) 0) / 2
        else sorted.getD (count / 2) 0
      some (aa, { mean := mean
                  median := median
                  stdSq := max 0 variance
                  count := count
                  values := sorted })

/-- Source `computeConditionalMarginals(pos, filteredIndices)`: per value of
`aasAtPosition[pos]` (in that order), the fitness statistics over the value's
bucket restricted to the matching set; values whose restricted count is zero
are omitted. -/
def computeConditionalMarginals (seqs : List SeqRow) (pos : Nat)
    (filtered : Option (Finset Nat)) : List (Char × MarginalStat) :=
  (aasAtPosition seqs pos).filterMap (marginalFor seqs pos filtered)

/-- The per-position record of `computePositionEntropy(filteredIndices)` at
`pos`, keeping the discrete parts: the list of non-zero restricted counts and
`numAAs = Object.keys(marginals).length`.  The source's real-valued fields are
derived from these: `entropy = -Σ (c/total)·log2(c/total)` over `counts` with
`total = counts.sum`, and `maxEntropy = log2 numAAs`. -/
structure EntropySkeleton where
  counts : List Nat
  numAAs : Nat
deriving DecidableEq

/-- The body of `computePositionEntropy` for one position. -/
def computePositionEntropy (seqs : List SeqRow) (filtered : Option (Finset Nat))
    (pos : Nat) : EntropySkeleton :=
  let marginals := computeConditionalMarginals seqs pos filtered
  { counts := marginals.map fun e => e.2.count
    numAAs := marginals.length }

/-- JS `data.slice(-n)`: the last `n` elements for `n ≥ 1` (all of them when
`n` exceeds the length); `slice(-0)` is `slice(0)`, the whole array. -/
def sliceNeg (data : List SeqRow) (n : Nat) : List SeqRow :=
  if n = 0 then data else data.drop (data.length - n)

/-- Source `getTopBottom(n, filteredIndices)`: materialize the matching rows (for a
concrete set, `Array.from` yields its ids in insertion order, taken here as
the given list), stably sort by fitness descending, and return
`(slice(0, n), slice(-n).reverse())`. -/
def getTopBottom (seqs : List SeqRow) (n : Nat) (filtered : Option (List Nat)) :
    List SeqRow × List SeqRow :=
  let data :=
    match filtered with
    | some idxs => idxs.map fun i => seqs.getD i default
    | none => seqs
  let sorted := data.mergeSort fun a b => decide (b.slope ≤ a.slope)
  (sorted.take n, (sliceNeg sorted n).reverse)

/-- Source `getAllSlopes(filteredIndices)`: the fitness values of the matching rows. -/
def getAllSlopes (seqs : List SeqRow) (filtered : Option (List Nat)) : List ℚ :=
  match filtered with
  | some idxs => idxs.map fun i => (seqs.getD i default).slope
  | none => seqs.map fun s => s.slope

end DataProcessor

namespace App

open DataProcessor

/-- The coordinator's `state` object. -/
structure AppState where
  filters : Filters
  filteredIndices : Option (Finset Nat)
  sortBy : List Char
  sortDir : List Char
  searchQuery : List Char
  hideStops : Bool
  colorScale : List Char
deriving DecidableEq

/-- The initial coordinator state (the literal the source initialises
`state` with). -/
def initialState : AppState :=
  { filters := ⟨none, none, none, none⟩
    filteredIndices := none
    sortBy := "slope".data
    sortDir := "desc".data
    searchQuery := []
    hideStops := false
    colorScale := "log".data }

/-- Source `setFilter(pos, aa)`: toggle off when `aa` is already selected at `pos`,
otherwise select it; then recompute the matching set from the new filters. -/
def setFilter (seqs : List SeqRow) (s : AppState) (pos : Nat) (aa : List Char) : AppState :=
  let f :=
    if s.filters.get pos = some aa then s.filters.set pos none
    else s.filters.set pos (some aa)
  { s with filters := f, filteredIndices := getFilteredIndices seqs f }

/-- Source `clearFilter(pos)`. -/
def clearFilter (seqs : List SeqRow) (s : AppState) (pos : Nat) : AppState :=
  let f := s.filters.set pos none
  { s with filters := f, filteredIndices := getFilteredIndices seqs f }

/-- Source `clearAllFilters()`: every position reset, matching set set to `null`
directly (without calling the filter engine). -/
def clearAllFilters (s : AppState) : AppState :=
  { s with filters := ⟨none, none, none, none⟩, filteredIndices := none }

/-- Source `setSort(sortBy, sortDir)`. -/
def setSort (s : AppState) (sortBy sortDir : List Char) : AppState :=
  { s with sortBy := sortBy, sortDir := sortDir }

/-- Source `setSearch(query)`. -/
def setSearch (s : AppState) (query : List Char) : AppState :=
  { s with searchQuery := query }

/-- Source `setHideStops(hide)`. -/
def setHideStops (s : AppState) (hide : Bool) : AppState :=
  { s with hideStops := hide }

/-- Source `setColorScale(scale)`. -/
def setColorScale (s : AppState) (scale : List Char) : AppState :=
  { s with colorScale := scale }

end App

/-! ## URL-hash persistence layer

`saveHash` / `loadHash` move the filter map through the browser URL fragment.
The JS pieces involved — `encodeURIComponent`, `decodeURIComponent`,
`URLSearchParams`, `String.prototype.split`, `parseInt` — are embedded below
over `List Char`. -/

namespace JsStr

/-- JS `String.prototype.split` with a one-character separator. -/
def jsSplit (sep : Char) (s : List Char) : List (List Char) :=
  match s with
  | [] => [[]]
  | c :: rest =>
    let r := jsSplit sep rest
    if c = sep then [] :: r
    else
      match r with
      | [] => [[c]]
      | seg :: segs => (c :: seg) :: segs

/-- The characters `encodeURIComponent` leaves unescaped: ASCII alphanumerics
and `- _ . ! ~ * ( )` and the apostrophe (written by code to stay plain). -/
def isUnreserved (c : Char) : Bool :=
  c.isAlphanum || c ∈ ['-', '_', '.', '!', '~', '*', '(', ')', Char.ofNat 39]

/-- The UTF-8 bytes of a character, as numbers. -/
def utf8Bytes (c : Char) : List Nat :=
  let n := c.toNat
  if n < 0x80 then [n]
  else if n < 0x800 then [0xC0 + n / 64, 0x80 + n % 64]
  else if n < 0x10000 then [0xE0 + n / 4096, 0x80 + n / 64 % 64, 0x80 + n % 64]
  else [0xF0 + n / 262144, 0x80 + n / 4096 % 64, 0x80 + n / 64 % 64, 0x80 + n % 64]

/-- Upper-case hex digit of `n % 16`. -/
def hexDigit (n : Nat) : Char :=
  let m := n % 16
  if m < 10 then Char.ofNat ('0'.toNat + m) else Char.ofNat ('A'.toNat + (m - 10))

/-- The `%HH` escape of one byte. -/
def percentByte (b : Nat) : List Char :=
  ['%', hexDigit (b / 16), hexDigit (b % 16)]

/-- JS `encodeURIComponent`: unreserved characters stay, every other
character becomes the `%HH` escapes of its UTF-8 bytes. -/
def encodeURIComponent (s : List Char) : List Char :=
  s.flatMap fun c => if isUnreserved c then [c] else (utf8Bytes c).flatMap percentByte

/-- Numeric value of a hex digit character (codepoint arithmetic: 48–57 are
the digits, 65–70 upper-case A–F, 97–102 lower-case a–f). -/
def hexVal (c : Char) : Option Nat :=
  let n := c.toNat
  if 48 ≤ n ∧ n ≤ 57 then some (n - 48)
  else if 65 ≤ n ∧ n ≤ 70 then some (n - 55)
  else if 97 ≤ n ∧ n ≤ 102 then some (n - 87)
  else none

/-- Strict percent-decoding to bytes, as `decodeURIComponent` performs it:
a `%` not followed by two hex digits is a `URIError` (`none`); unescaped
characters contribute their UTF-8 bytes. -/
def percentDecodeBytes : List Char → Option (List Nat)
  | [] => some []
  | c :: rest =>
    if c = '%' then
      match rest with
      | c1 :: c2 :: rest2 =>
        match hexVal c1, hexVal c2 with
        | some h, some lo => (percentDecodeBytes rest2).map fun bs => (16 * h + lo) :: bs
        | _, _ => none
      | _ => none
    else (percentDecodeBytes rest).map fun bs => utf8Bytes c ++ bs

/-- One step of strict UTF-8 decoding: the character decoded from the lead
byte `b` (with continuation bytes taken from `rest`) and the remaining bytes,
or `none` on a malformed sequence (overlong/surrogate checks are not
modelled — no input in this development leaves ASCII). -/
def utf8Step (b : Nat) (rest : List Nat) : Option (Char × List Nat) :=
  if b < 0x80 then some (Char.ofNat b, rest)
  else if b < 0xC0 then none
  else if b < 0xE0 then
    match rest with
    | b2 :: rest2 =>
      if 0x80 ≤ b2 ∧ b2 < 0xC0 then
        some (Char.ofNat ((b - 0xC0) * 64 + (b2 - 0x80)), rest2)
      else none
    | _ => none
  else if b < 0xF0 then
    match rest with
    | b2 :: b3 :: rest2 =>
      if (0x80 ≤ b2 ∧ b2 < 0xC0) ∧ (0x80 ≤ b3 ∧ b3 < 0xC0) then
        some (Char.ofNat ((b - 0xE0) * 4096 + (b2 - 0x80) * 64 + (b3 - 0x80)), rest2)
      else none
    | _ => none
  else
    match rest with
    | b2 :: b3 :: b4 :: rest2 =>
      if (0x80 ≤ b2 ∧ b2 < 0xC0) ∧ (0x80 ≤ b3 ∧ b3 < 0xC0) ∧ (0x80 ≤ b4 ∧ b4 < 0xC0) then
        some (Char.ofNat ((b - 0xF0) * 262144 + (b2 - 0x80) * 4096 + (b3 - 0x80) * 64 + (b4 - 0x80)),
          rest2)
      else none
    | _ => none

theorem utf8Step_length {b : Nat} {rest : List Nat} {c : Char} {rem : List Nat}
    (h : utf8Step b rest = some (c, rem)) : rem.length ≤ rest.length := by
  unfold utf8Step at h
  rcases rest with _ | ⟨b2, r2⟩
  · split_ifs at h <;> simp_all
  · rcases r2 with _ | ⟨b3, r3⟩
    · split_ifs at h <;> simp_all
    · rcases r3 with _ | ⟨b4, r4⟩
      · split_ifs at h <;> simp_all
      · split_ifs at h <;> simp_all <;> omega

/-- Strict UTF-8 decoding of a byte list (`none` on a malformed sequence). -/
def utf8Decode : List Nat → Option (List Char)
  | [] => some []
  | b :: rest =>
    if hs : (utf8Step b rest).isSome then
      let p := (utf8Step b rest).get hs
      (utf8Decode p.2).map fun cs => p.1 :: cs
    else none
termination_by l => l.length
decreasing_by
  obtain ⟨⟨c, rem⟩, hp⟩ := Option.isSome_iff_exists.mp hs
  have h1 := utf8Step_length hp
  simp only [hp, Option.get_some, List.length_cons]
  omega

/-- JS `decodeURIComponent` (`none` models the thrown `URIError`). -/
def decodeURIComponentOpt (s : List Char) : Option (List Char) :=
  (percentDecodeBytes s).bind utf8Decode

/-- Lenient `application/x-www-form-urlencoded` decoding to bytes, as
`URLSearchParams` performs it: `+` is a space, a malformed `%` escape is kept
literally, nothing throws. -/
def formDecodeBytes : List Char → List Nat
  | [] => []
  | c :: rest =>
    if c = '+' then 0x20 :: formDecodeBytes rest
    else if c = '%' then
      match rest with
      | c1 :: c2 :: rest2 =>
        match hexVal c1, hexVal c2 with
        | some h, some lo => (16 * h + lo) :: formDecodeBytes rest2
        | _, _ => utf8Bytes '%' ++ formDecodeBytes (c1 :: c2 :: rest2)
      | [c1] => utf8Bytes '%' ++ formDecodeBytes [c1]
      | [] => utf8Bytes '%'
    else utf8Bytes c ++ formDecodeBytes rest
termination_by l => l.length
decreasing_by all_goals (simp [List.length_cons] <;> omega)

/-- Lenient UTF-8 decoding with U+FFFD replacement, as `URLSearchParams`
performs it (never fails): a malformed step yields U+FFFD and resumes at the
byte after the offending lead byte. -/
def utf8DecodeLenient : List Nat → List Char
  | [] => []
  | b :: rest =>
    if hs : (utf8Step b rest).isSome then
      let p := (utf8Step b rest).get hs
      p.1 :: utf8DecodeLenient p.2
    else Char.ofNat 0xFFFD :: utf8DecodeLenient rest
termination_by l => l.length
decreasing_by
  · obtain ⟨⟨c, rem⟩, hp⟩ := Option.isSome_iff_exists.mp hs
    have h1 := utf8Step_length hp
    simp only [hp, Option.get_some, List.length_cons]
    omega
  · simp

/-- The full lenient decoding `URLSearchParams` applies to names and values. -/
def formDecode (s : List Char) : List Char :=
  utf8DecodeLenient (formDecodeBytes s)

/-- Split a `name=value` segment at its first `=` (no `=` gives value `""`). -/
def splitFirstEq : List Char → List Char × List Char
  | [] => ([], [])
  | c :: rest =>
    if c = '=' then ([], rest)
    else
      let p := splitFirstEq rest
      (c :: p.1, p.2)

/-- JS `new URLSearchParams(query).get(key)`: split on `&` discarding empty
segments, split each segment at its first `=`, decode names and values
leniently, return the first value whose name matches. -/
def urlParamsGet (query : List Char) (key : List Char) : Option (List Char) :=
  let segs := (jsSplit '&' query).filter fun seg => seg ≠ []
  let entries := segs.map fun seg =>
    let p := splitFirstEq seg
    (formDecode p.1, formDecode p.2)
  (entries.find? fun e => e.1 = key).map fun e => e.2

/-- The longest leading run of decimal digits, as a number (`none` if there
is none). -/
def digitsPrefix (l : List Char) : Option Nat :=
  let ds := l.takeWhile Char.isDigit
  if ds = [] then none
  else some (ds.foldl (fun a c => 10 * a + (c.toNat - '0'.toNat)) 0)

/-- The longest leading run of hex digits, as a number (`none` if there is
none). -/
def hexPrefix (l : List Char) : Option Nat :=
  let ds := l.takeWhile fun c => (hexVal c).isSome
  if ds = [] then none
  else some (ds.foldl (fun a c => 16 * a + (hexVal c).getD 0) 0)

/-- The sign-free part of JS `parseInt` with no explicit radix: a `0x`/`0X`
prefix switches to hex, otherwise the leading decimal digits are taken
(`none` is `NaN`). -/
def parseIntBody (l : List Char) : Option Nat :=
  match l with
  | '0' :: x :: rest => if x = 'x' ∨ x = 'X' then hexPrefix rest else digitsPrefix l
  | _ => digitsPrefix l

/-- JS `parseInt(s)` (radix auto-detected): skip leading whitespace, read an
optional sign, then the number body; `none` is `NaN`. -/
def parseIntJS (s : List Char) : Option Int :=
  let s1 := s.dropWhile fun c => c = ' ' ∨ c = '\t' ∨ c = '\n' ∨ c = '\r'
  match s1 with
  | '-' :: rest => (parseIntBody rest).map fun n => -(n : Int)
  | '+' :: rest => (parseIntBody rest).map fun n => (n : Int)
  | rest => (parseIntBody rest).map fun n => (n : Int)

end JsStr

namespace App

open DataProcessor JsStr

/-- One `parts` entry of `saveHash` for a constrained position:
`pos + ':' + encodeURIComponent(value)`. -/
def hashPart (pos : Nat) (v : List Char) : List Char :=
  (Nat.repr pos).data ++ ':' :: encodeURIComponent v

/-- The `parts` array of `saveHash`: one entry per constrained position, in
canonical position order. -/
def hashParts (f : Filters) : List (List Char) :=
  VARIABLE_POSITIONS.filterMap fun pos => (f.get pos).map fun v => hashPart pos v

/-- Source `saveHash` (the fragment written after `#`): `filters=` followed by the
comma-joined parts, or the empty string when no position is constrained (the
source then clears the fragment, so a later `location.hash.slice(1)` reads
`""`). -/
def saveHash (f : Filters) : List Char :=
  let filterStr := List.intercalate [','] (hashParts f)
  if filterStr = [] then [] else "filters=".data ++ filterStr

/-- The `for (const pair of pairs)` loop of `loadHash`: split each pair at
`:`, keep it only when the parsed position is one of the four recognised ones
and the value part is non-empty, and write the `decodeURIComponent` of the
value into the filter map.  `none` models the `URIError` that
`decodeURIComponent` throws on a malformed escape (it aborts `loadHash`). -/
def applyPairs : List (List Char) → Filters → Option Filters
  | [], f => some f
  | pair :: rest, f =>
    let comps := jsSplit ':' pair
    let posStr := comps.getD 0 []
    let aa := comps.getD 1 []
    match parseIntJS posStr, aa with
    | some p, _ :: _ =>
      if p ∈ VARIABLE_POSITIONS.map Int.ofNat then
        match decodeURIComponentOpt aa with
        | none => none
        | some v => applyPairs rest (f.set p.toNat (some v))
      else applyPairs rest f
    | _, _ => applyPairs rest f

/-- Source `loadHash`, given `location.hash.slice(1)`: no fragment or no `filters`
parameter leaves the state untouched; otherwise every valid
`position:value` pair is applied to the filter map and the matching set is
recomputed once.  `none` models an uncaught `URIError` from
`decodeURIComponent`. -/
def loadHash (seqs : List SeqRow) (hash : List Char) (s : AppState) : Option AppState :=
  if hash = [] then some s
  else
    match urlParamsGet hash "filters".data with
    | none => some s
    | some filterStr =>
      let pairs := jsSplit ',' filterStr
      match applyPairs pairs s.filters with
      | none => none
      | some f => some { s with filters := f, filteredIndices := getFilteredIndices seqs f }

end App

/-! ## Derived and auxiliary definitions used by the verification -/

namespace DataProcessor

/-- The comparator of `getTopBottom` (fitness descending). -/
def descSlope (a b : SeqRow) : Bool := decide (b.slope ≤ a.slope)

/-- The key of row `i` at `pos` (the JS `seq[pos]` of `sequences[i]`). -/
def rowKey (seqs : List SeqRow) (pos i : Nat) : Option Char :=
  keyAt ((seqs.getD i default).seq) pos

/-- Formalisation of the spec's `k` for C2: "the number of distinct values
observed at that position in the entire unfiltered dataset". -/
def specDistinctCount (seqs : List SeqRow) (pos : Nat) : Nat :=
  ((Finset.range seqs.length).image fun j => rowKey seqs pos j).card

end DataProcessor

namespace App

open DataProcessor

/-- A filter state whose selected values are single canonical symbols (the
spec's data model: values are drawn from the 21-symbol alphabet). -/
def CanonicalFilters (f : Filters) : Prop :=
  ∀ pos v, f.get pos = some v → ∃ c ∈ AA_ORDER, v = [c]

/-- The filter map obtained by re-applying the saved selections of `f` at the
positions `ps` on top of `g` (the semantics of `loadHash`'s pair loop on the
pairs `saveHash` wrote). -/
def applyListF (f : Filters) (ps : List Nat) (g : Filters) : Filters :=
  ps.foldl
    (fun g pos =>
      match f.get pos with
      | none => g
      | some v => g.set pos (some v))
    g

/-- The coordinator's consistency invariant: the stored matching set is the
filter engine's resolution of the stored filter map. -/
def Consistent (seqs : List SeqRow) (s : AppState) : Prop :=
  s.filteredIndices = getFilteredIndices seqs s.filters

/-- A canonical filter state: `C` at position 9 and the stop symbol at 13. -/
def canonicalTestFilters : Filters := ⟨some ['C'], none, some ['*'], none⟩

end App

/-! ## Concrete example datasets -/

section Examples

open DataProcessor App JsStr

/-- A raw row with the scaffold sequence carrying `c9 c12 c13 c16` at the
variable positions, and the given fitness. -/
def scaffoldRaw (c9 c12 c13 c16 : Char) (q : ℚ) : RawRow :=
  ⟨['V','R','N','G','M','S','L','H','D', c9, 'L','M', c12, c13, 'L','K', c16,
    'R','G','L','Q','P','E','C','C'], some q, none⟩

/-- Four rows with fitness 5, 3, 9, 1 (the spec's top/bottom example). -/
def exampleSeqs4 : List SeqRow :=
  sequences [scaffoldRaw 'C' 'A' 'A' 'A' 5, scaffoldRaw 'C' 'A' 'A' 'A' 3,
             scaffoldRaw 'C' 'A' 'A' 'A' 9, scaffoldRaw 'C' 'A' 'A' 'A' 1]

/-- The spec's conditional-marginal example: p9 = C, C, K with fitness 2, 4, 1. -/
def statSeqs : List SeqRow :=
  sequences [scaffoldRaw 'C' 'A' 'A' 'A' 2, scaffoldRaw 'C' 'A' 'A' 'A' 4,
             scaffoldRaw 'K' 'A' 'A' 'A' 1]

/-- Two rows differing at position 9 (C and K). -/
def twoSeqs : List SeqRow :=
  sequences [scaffoldRaw 'C' 'A' 'A' 'A' 1, scaffoldRaw 'K' 'A' 'A' 'A' 2]

end Examples

section MoreExamples

open DataProcessor App

/-- A single retained row with negative fitness. -/
def negSeqs : List SeqRow := sequences [scaffoldRaw 'C' 'A' 'A' 'A' (-1)]

/-- A dataset with one canonical row and one too-short sequence (length 3). -/
def mixedSeqs : List SeqRow :=
  sequences [scaffoldRaw 'C' 'A' 'A' 'A' 1, ⟨['A', 'C', 'D'], some 2, none⟩]

end MoreExamples

/-! ## Theorems -/



namespace DataProcessor

theorem descSlope_trans : ∀ a b c : SeqRow, descSlope a b → descSlope b c → descSlope a c := by
  intro a b c h1 h2
  simp only [descSlope, decide_eq_true_eq] at *
  exact le_trans h2 h1

theorem descSlope_total : ∀ a b : SeqRow, descSlope a b || descSlope b a := by
  intro a b
  simp only [descSlope, Bool.or_eq_true, decide_eq_true_eq]
  exact le_total b.slope a.slope

end DataProcessor

section C1

open DataProcessor

/-- C1 (counterexample): over fitness `[5,3,9,1]` with no filter,
`getTopBottom(2)` does *not* return `bottom = [3,1]`: `top` is `[9,5]` but
`bottom` is `[1,3]`, running from the absolute minimum upward. -/
theorem spec_c1_counterexample :
    ¬ ((getTopBottom exampleSeqs4 2 none).2.map (fun r => r.slope) = [3, 1]) ∧
      (getTopBottom exampleSeqs4 2 none).1.map (fun r => r.slope) = [9, 5] ∧
      (getTopBottom exampleSeqs4 2 none).2.map (fun r => r.slope) = [1, 3] := by
  have hmap : ((exampleSeqs4.mergeSort descSlope).map fun r => r.slope)
      = (exampleSeqs4.map fun r => r.slope).mergeSort (fun a b => decide (b ≤ a)) :=
    List.map_mergeSort (fun a _ b _ => rfl)
  have hslopes : exampleSeqs4.map (fun r => r.slope) = [5, 3, 9, 1] := by decide
  have hsorted : ((exampleSeqs4.mergeSort descSlope).map fun r => r.slope) = [9, 5, 3, 1] := by
    rw [hmap, hslopes]
    simp +decide [List.mergeSort, List.merge, List.splitInTwo]
  have hlen : (exampleSeqs4.mergeSort descSlope).length = 4 := by
    rw [List.length_mergeSort]; decide
  have htop : (getTopBottom exampleSeqs4 2 none).1.map (fun r => r.slope) = [9, 5] := by
    show ((exampleSeqs4.mergeSort descSlope).take 2).map (fun r => r.slope) = [9, 5]
    rw [List.map_take, hsorted]
    rfl
  have hbot : (getTopBottom exampleSeqs4 2 none).2.map (fun r => r.slope) = [1, 3] := by
    show (((sliceNeg (exampleSeqs4.mergeSort descSlope) 2)).reverse).map (fun r => r.slope)
      = [1, 3]
    rw [List.map_reverse, sliceNeg, if_neg (by decide), List.map_drop, hsorted, hlen]
    rfl
  refine ⟨by rw [hbot]; decide, htop, hbot⟩

end C1

section C1A

open DataProcessor

/-- In a `Pairwise R` list, every element is the last one or `R`-related to it. -/
theorem pairwise_rel_getLast {α : Type} {R : α → α → Prop} :
    ∀ {l : List α}, l.Pairwise R → ∀ {m}, l.getLast? = some m → ∀ r ∈ l, r = m ∨ R r m := by
  intro l hp m hm r hr
  have hrev : l.reverse.Pairwise (fun a b => R b a) := List.pairwise_reverse.mpr hp
  have hhead : l.reverse.head? = some m := by
    rw [List.head?_reverse]; exact hm
  obtain ⟨t, ht⟩ : ∃ t, l.reverse = m :: t := by
    cases hrev' : l.reverse with
    | nil => rw [hrev'] at hhead; simp at hhead
    | cons a t =>
      rw [hrev'] at hhead
      simp at hhead
      exact ⟨t, by rw [hhead]⟩
  rw [ht] at hrev
  have hr' : r ∈ m :: t := by rw [← ht, List.mem_reverse]; exact hr
  rcases List.mem_cons.mp hr' with h | h
  · exact Or.inl h
  · exact Or.inr ((List.pairwise_cons.mp hrev).1 r h)

/-- C1 (amended): `getTopBottom` sorts the matching rows by fitness
descending; `top` is the first `n` of that order (fitness non-increasing),
and `bottom` is the last `n` reversed, so it runs from the absolute minimum
*upward*: it is fitness non-decreasing and its first element attains the
minimum fitness of the matching rows. -/
theorem spec_c1_amended (seqs : List SeqRow) (n : Nat) (hn : 1 ≤ n) (hne : seqs ≠ []) :
    ((getTopBottom seqs n none).1.Pairwise fun a b => b.slope ≤ a.slope) ∧
      ((getTopBottom seqs n none).2.Pairwise fun a b => a.slope ≤ b.slope) ∧
      ∃ m, (getTopBottom seqs n none).2.head? = some m ∧ m ∈ seqs ∧
        ∀ r ∈ seqs, m.slope ≤ r.slope := by
  have hsor : (seqs.mergeSort descSlope).Pairwise fun a b => descSlope a b = true :=
    List.sorted_mergeSort descSlope_trans descSlope_total seqs
  have hsor' : (seqs.mergeSort descSlope).Pairwise fun a b => b.slope ≤ a.slope := by
    refine hsor.imp ?_
    intro a b h
    simpa [descSlope] using h
  have hperm : (seqs.mergeSort descSlope).Perm seqs := List.mergeSort_perm seqs descSlope
  set sorted := seqs.mergeSort descSlope with hsortedDef
  have hlen : sorted.length = seqs.length := List.length_mergeSort ..
  have hlenpos : 1 ≤ sorted.length := by
    rw [hlen]
    exact List.length_pos.mpr hne
  have hk : sorted.length - n < sorted.length := by omega
  have hdropne : sorted.drop (sorted.length - n) ≠ [] := by
    intro h
    have := List.length_drop (sorted.length - n) sorted
    rw [h] at this
    simp at this
    omega
  have hslice : sliceNeg sorted n = sorted.drop (sorted.length - n) := by
    rw [sliceNeg, if_neg (by omega)]
  -- top
  have htop : (getTopBottom seqs n none).1 = sorted.take n := rfl
  have hbot : (getTopBottom seqs n none).2 = (sliceNeg sorted n).reverse := rfl
  refine ⟨?_, ?_, ?_⟩
  · rw [htop]
    exact hsor'.sublist (List.take_sublist ..)
  · rw [hbot, hslice, List.pairwise_reverse]
    exact hsor'.sublist (List.drop_sublist ..)
  · obtain ⟨m, hm⟩ := List.getLast?_isSome.mpr hdropne |> Option.isSome_iff_exists.mp
    set k := sorted.length - n with hkdef
    have hsplit : sorted.take k ++ sorted.drop k = sorted := List.take_append_drop k sorted
    have hpw : ((sorted.take k) ++ (sorted.drop k)).Pairwise fun a b => b.slope ≤ a.slope := by
      rw [hsplit]; exact hsor'
    obtain ⟨hpw1, hpw2, hpw12⟩ := List.pairwise_append.mp hpw
    have hmin : ∀ r ∈ seqs, m.slope ≤ r.slope := by
      intro r hr
      have hr' : r ∈ sorted := hperm.mem_iff.mpr hr
      have hr'' : r ∈ sorted.take k ++ sorted.drop k := by rw [hsplit]; exact hr'
      rcases List.mem_append.mp hr'' with h | h
      · exact hpw12 r h m (List.mem_of_mem_getLast? hm)
      · rcases pairwise_rel_getLast hpw2 hm r h with h' | h'
        · rw [h']
        · exact h'
    refine ⟨m, ?_, ?_, hmin⟩
    · rw [hbot, hslice, List.head?_reverse]
      exact hm
    · exact hperm.subset (List.mem_of_mem_drop (List.mem_of_mem_getLast? hm))

end C1A

section C1W

open DataProcessor

/-- Witness for the amended C1 at the spec's four-row example. -/
theorem spec_c1_amended_witness :
    (1 ≤ 2 ∧ exampleSeqs4 ≠ []) ∧
      (((getTopBottom exampleSeqs4 2 none).1.Pairwise fun a b => b.slope ≤ a.slope) ∧
        ((getTopBottom exampleSeqs4 2 none).2.Pairwise fun a b => a.slope ≤ b.slope) ∧
        ∃ m, (getTopBottom exampleSeqs4 2 none).2.head? = some m ∧ m ∈ exampleSeqs4 ∧
          ∀ r ∈ exampleSeqs4, m.slope ≤ r.slope) :=
  ⟨⟨by decide, by decide⟩, spec_c1_amended exampleSeqs4 2 (by decide) (by decide)⟩

end C1W

section C3

open DataProcessor

/-- C3 (code bug): after the build over a single row of fitness −1, the stored
minimum is −1 (correct) but the stored maximum is the initialisation value 0,
not the true maximum −1 of the retained rows: `maxSlope` starts at `0` rather
than `-Infinity`, so an all-negative dataset keeps `maxSlope = 0`. -/
theorem spec_c3_maxslope_bug :
    negSeqs.map (fun r => r.slope) = [-1] ∧
      minSlope negSeqs = some (-1) ∧
      maxSlope negSeqs = 0 ∧
      ¬ ∃ r ∈ negSeqs, r.slope = maxSlope negSeqs := by
  refine ⟨by decide, by decide, by decide, ?_⟩
  rintro ⟨r, hr, hs⟩
  have h1 : negSeqs.map (fun r => r.slope) = [-1] := by decide
  have h2 : maxSlope negSeqs = 0 := by decide
  rw [h2] at hs
  have : r.slope ∈ negSeqs.map (fun r => r.slope) := List.mem_map_of_mem _ hr
  rw [h1, hs] at this
  simp at this
end C3

section C6

open DataProcessor

/-- C6 (confirmed): the spec's conditional-marginal example.  Over rows with
`p9 = C, C, K` and fitness `2, 4, 1`, the unconstrained marginal at position 9
for value `C` has count 2, mean 3, median 3 (average of the two middle sorted
values) and standard deviation `√((Σx²)/n − mean²) = √1 = 1`. -/
theorem spec_c6_marginal_example :
    ∃ st, (computeConditionalMarginals statSeqs 9 none).lookup 'C' = some st ∧
      st.count = 2 ∧ st.mean = 3 ∧ st.median = 3 ∧ st.stdSq = 1 ∧
      Real.sqrt (st.stdSq : ℝ) = 1 := by
  have h1 : aasAtPosition statSeqs 9 = ['C', 'K'] := by decide
  have hvC : restrictBucket none (bucket statSeqs 9 (some 'C')) = [0, 1] := by decide
  have hvK : restrictBucket none (bucket statSeqs 9 (some 'K')) = [2] := by decide
  have hs0 : ((statSeqs.get? 0).getD default).slope = 2 := by decide
  have hs1 : ((statSeqs.get? 1).getD default).slope = 4 := by decide
  rw [computeConditionalMarginals, h1]
  simp only [List.filterMap_cons, marginalFor, hvC, hvK, List.map_cons, List.map_nil, List.getD]
  rw [hs0, hs1]
  have hms : ([(2:ℚ), 4].mergeSort fun a b => decide (a ≤ b)) = [2, 4] := by
    simp +decide [List.mergeSort, List.merge, List.splitInTwo]
  norm_num [hms]
end C6

section C7

open DataProcessor App

/-- The loop returns the empty set whenever any remaining position is
constrained to a value owning no bucket, regardless of the accumulator. -/
theorem filterLoop_missing_bucket (seqs : List SeqRow) (f : Filters) :
    ∀ (ps : List Nat) (acc : Option (Finset Nat)) (pos : Nat) (v : List Char),
      pos ∈ ps → f.get pos = some v → lookupBucket seqs pos v = none →
      filterLoop seqs f ps acc = some ∅ := by
  intro ps
  induction ps with
  | nil => intro acc pos v h; exact absurd h (List.not_mem_nil _)
  | cons p rest ih =>
    intro acc pos v hmem hv hb
    rcases List.mem_cons.mp hmem with heq | htail
    · subst heq
      rw [filterLoop]
      simp only [hv, hb]
    · rw [filterLoop]
      cases hgp : f.get p with
      | none =>
        simp only [hgp]
        exact ih acc pos v htail hv hb
      | some w =>
        cases hlb : lookupBucket seqs p w with
        | none => simp only [hgp, hlb]
        | some matching =>
          simp only [hgp, hlb]
          cases acc with
          | none => exact ih _ pos v htail hv hb
          | some r => exact ih _ pos v htail hv hb

/-- C7 (confirmed): a filter state in which some recognised position requests
a value owning no bucket resolves to the explicit empty constrained set
(`some ∅`, distinct from the `none` that encodes Unconstrained), regardless
of the other positions' constraints. -/
theorem spec_c7_unknown_value_empty (seqs : List SeqRow) (f : Filters) (pos : Nat)
    (v : List Char) (hpos : pos ∈ VARIABLE_POSITIONS) (hv : f.get pos = some v)
    (hb : lookupBucket seqs pos v = none) :
    getFilteredIndices seqs f = some ∅ :=
  filterLoop_missing_bucket seqs f VARIABLE_POSITIONS none pos v hpos hv hb

/-- Witness for C7: position 9 constrained to `Z` (absent from the data)
while position 12 is constrained to a present value. -/
theorem spec_c7_witness :
    ((9 : Nat) ∈ VARIABLE_POSITIONS ∧
        Filters.get ⟨some ['Z'], some ['L'], none, none⟩ 9 = some ['Z'] ∧
        lookupBucket twoSeqs 9 ['Z'] = none) ∧
      getFilteredIndices twoSeqs ⟨some ['Z'], some ['L'], none, none⟩ = some ∅ :=
  ⟨⟨by decide, by decide, by decide⟩,
    spec_c7_unknown_value_empty twoSeqs ⟨some ['Z'], some ['L'], none, none⟩ 9 ['Z']
      (by decide) (by decide) (by decide)⟩

end C7

section C8

open DataProcessor App

/-- C8 (counterexample): starting from a state where `C` is already selected
at position 9, `setFilter(9,'C')` twice does *not* leave position 9
unconstrained: the first call toggles the selection off and the second
re-selects `C`. -/
theorem spec_c8_counterexample :
    (setFilter twoSeqs
        (setFilter twoSeqs
          { initialState with filters := ⟨some ['C'], none, none, none⟩ } 9 ['C'])
        9 ['C']).filters.get 9 = some ['C'] := by
  decide

/-- C8 (amended): from any state in which `v` is *not* currently selected at
`p`, `setFilter(p, v)` twice consecutively leaves `p` unconstrained — the
first call selects `v` (replacing any previous selection), the second sees
`v` selected and clears it. -/
theorem spec_c8_toggle (seqs : List SeqRow) (s : AppState) (pos : Nat) (v : List Char)
    (h : s.filters.get pos ≠ some v) (hpos : pos ∈ VARIABLE_POSITIONS) :
    (setFilter seqs (setFilter seqs s pos v) pos v).filters.get pos = none := by
  fin_cases hpos <;>
    · simp only [setFilter, if_neg h]
      cases s.filters
      simp_all [Filters.get, Filters.set]

/-- Witness for the amended C8 at a concrete state. -/
theorem spec_c8_toggle_witness :
    (initialState.filters.get 9 ≠ some ['C'] ∧ (9 : Nat) ∈ VARIABLE_POSITIONS) ∧
      (setFilter twoSeqs (setFilter twoSeqs initialState 9 ['C']) 9 ['C']).filters.get 9
        = none :=
  ⟨⟨by decide, by decide⟩, spec_c8_toggle twoSeqs initialState 9 ['C'] (by decide) (by decide)⟩

end C8

namespace DataProcessor

theorem mem_bucket {seqs : List SeqRow} {pos i : Nat} {k : Option Char} :
    i ∈ bucket seqs pos k ↔ i < seqs.length ∧ rowKey seqs pos i = k := by
  simp [bucket, List.mem_filter, List.mem_range, rowKey]

/-- Restricting a bucket to a set never grows it. -/
theorem restrictBucket_sublist (F : Option (Finset Nat)) (b : List Nat) :
    (restrictBucket F b).Sublist b :=
  List.filter_sublist b

end DataProcessor

section C10

open DataProcessor App

/-- C10 (confirmed): a retained row whose key at a variable position is
outside the canonical alphabet — in particular a too-short sequence, whose
key is the JS `undefined` while its stored per-position value is the empty
string — is present in the index (in its key's bucket) and in the
Unconstrained matching set, but lies in no canonical value's bucket, so the
conditional marginals (and hence every entropy term derived from them) are
unchanged by removing it from any matching set. -/
theorem spec_c10_noncanonical_row (seqs : List SeqRow) (pos i : Nat) (r : SeqRow)
    (hr : seqs.get? i = some r) (hk : rowKey seqs pos i ∉ AA_ORDER.map some) :
    i < seqs.length ∧
      i ∈ bucket seqs pos (rowKey seqs pos i) ∧
      getFilteredIndices seqs ⟨none, none, none, none⟩ = none ∧
      (∀ aa ∈ aasAtPosition seqs pos, i ∉ bucket seqs pos (some aa)) ∧
      (∀ S : Finset Nat,
        computeConditionalMarginals seqs pos (some S)
          = computeConditionalMarginals seqs pos (some (S.erase i))) ∧
      (rowKey seqs pos i = none → posVal r.seq pos = []) := by
  have hlen : i < seqs.length := (List.get?_eq_some.mp hr).1
  have hnot : ∀ aa : Char, aa ∈ AA_ORDER → i ∉ bucket seqs pos (some aa) := by
    intro aa ha hmem
    exact hk (List.mem_map.mpr ⟨aa, ha, (mem_bucket.mp hmem).2.symm⟩)
  refine ⟨hlen, mem_bucket.mpr ⟨hlen, rfl⟩, rfl, ?_, ?_, ?_⟩
  · intro aa ha
    exact hnot aa (List.mem_of_mem_filter ha)
  · intro S
    unfold computeConditionalMarginals
    refine List.filterMap_congr ?_
    intro aa ha
    have hib : i ∉ bucket seqs pos (some aa) :=
      hnot aa (List.mem_of_mem_filter ha)
    have hrb : restrictBucket (some S) (bucket seqs pos (some aa))
        = restrictBucket (some (S.erase i)) (bucket seqs pos (some aa)) := by
      unfold restrictBucket
      refine List.filter_congr ?_
      intro j hj
      have hji : j ≠ i := fun h => hib (h ▸ hj)
      simp [Finset.mem_erase, hji]
    unfold marginalFor
    rw [hrb]
  · intro hnone
    have hgd : seqs.getD i default = r := by
      rw [List.getD_eq_getElem?_getD, ← List.get?_eq_getElem?, hr]
      rfl
    rw [rowKey, hgd] at hnone
    rw [keyAt] at hnone
    unfold posVal
    rw [hnone]

end C10

namespace DataProcessor

theorem marginalFor_eq_none_iff {seqs : List SeqRow} {pos : Nat}
    {F : Option (Finset Nat)} {aa : Char} :
    marginalFor seqs pos F aa = none ↔ restrictBucket F (bucket seqs pos (some aa)) = [] := by
  unfold marginalFor
  simp only [List.length_map]
  constructor
  · intro h
    by_cases hc : (restrictBucket F (bucket seqs pos (some aa))).length = 0
    · exact List.length_eq_zero.mp hc
    · rw [if_neg hc] at h
      exact absurd h (by simp)
  · intro h
    rw [h]
    simp

theorem marginalFor_count {seqs : List SeqRow} {pos : Nat} {F : Option (Finset Nat)}
    {aa : Char} {e : Char × MarginalStat} (h : marginalFor seqs pos F aa = some e) :
    e.1 = aa ∧ e.2.count = (restrictBucket F (bucket seqs pos (some aa))).length := by
  unfold marginalFor at h
  simp only [List.length_map] at h
  by_cases hc : (restrictBucket F (bucket seqs pos (some aa))).length = 0
  · rw [if_pos hc] at h
    exact absurd h (by simp)
  · rw [if_neg hc] at h
    rw [Option.some.injEq] at h
    subst h
    exact ⟨rfl, by simp [List.length_map]⟩

/-- The marginal counts sum to the restricted bucket sizes over the
iteration order. -/
theorem counts_sum (seqs : List SeqRow) (pos : Nat) (F : Option (Finset Nat)) :
    ((computeConditionalMarginals seqs pos F).map fun e => e.2.count).sum
      = ((aasAtPosition seqs pos).map fun aa =>
          (restrictBucket F (bucket seqs pos (some aa))).length).sum := by
  unfold computeConditionalMarginals
  generalize aasAtPosition seqs pos = l
  induction l with
  | nil => rfl
  | cons aa rest ih =>
    rw [List.filterMap_cons]
    cases hm : marginalFor seqs pos F aa with
    | none =>
      have h0 : (restrictBucket F (bucket seqs pos (some aa))).length = 0 := by
        rw [marginalFor_eq_none_iff.mp hm]
        rfl
      simp [ih, h0]
    | some e =>
      obtain ⟨-, hcount⟩ := marginalFor_count hm
      simp [ih, hcount]

/-- The marginal list is as long as the list of values with nonempty
restricted bucket. -/
theorem marginals_length (seqs : List SeqRow) (pos : Nat) (F : Option (Finset Nat)) :
    (computeConditionalMarginals seqs pos F).length
      = ((aasAtPosition seqs pos).filter fun aa =>
          restrictBucket F (bucket seqs pos (some aa)) ≠ []).length := by
  unfold computeConditionalMarginals
  generalize aasAtPosition seqs pos = l
  induction l with
  | nil => rfl
  | cons aa rest ih =>
    rw [List.filterMap_cons, List.filter_cons]
    cases hm : marginalFor seqs pos F aa with
    | none =>
      have h0 := marginalFor_eq_none_iff.mp hm
      simp [ih, h0]
    | some e =>
      have h0 : ¬ restrictBucket F (bucket seqs pos (some aa)) = [] := by
        intro hempty
        rw [marginalFor_eq_none_iff.mpr hempty] at hm
        cases hm
      simp [ih, h0]

/-- The unconstrained marginals agree with the marginals over the full
identifier range. -/
theorem marginals_none_eq_range (seqs : List SeqRow) (pos : Nat) :
    computeConditionalMarginals seqs pos none
      = computeConditionalMarginals seqs pos (some (Finset.range seqs.length)) := by
  unfold computeConditionalMarginals
  refine List.filterMap_congr ?_
  intro aa _
  unfold marginalFor
  have h : restrictBucket none (bucket seqs pos (some aa))
      = restrictBucket (some (Finset.range seqs.length)) (bucket seqs pos (some aa)) := by
    unfold restrictBucket
    refine List.filter_congr ?_
    intro j hj
    have := (mem_bucket.mp hj).1
    simp [Finset.mem_range, this]
  rw [h]

/-- Dropped summands of a filtered map-sum must vanish. -/
theorem sum_map_filter_of_zero {α : Type} (l : List α) (p : α → Bool) (f : α → Nat)
    (h : ∀ a ∈ l, p a = false → f a = 0) :
    ((l.filter p).map f).sum = (l.map f).sum := by
  induction l with
  | nil => rfl
  | cons a rest ih =>
    rw [List.filter_cons]
    have hrest := ih fun b hb => h b (List.mem_cons_of_mem a hb)
    cases hp : p a with
    | true => simp [hp, hrest]
    | false => simp [hp, hrest, h a (List.mem_cons_self a rest) hp]

/-- Filtering `range n` as a list or as a `Finset` counts the same. -/
theorem length_filter_range_eq_card (n : Nat) (p : Nat → Prop) [DecidablePred p] :
    ((List.range n).filter fun i => decide (p i)).length
      = ((Finset.range n).filter p).card := rfl

end DataProcessor

namespace DataProcessor

/-- Core of the sum law: over a valid matching set whose rows all carry
canonical values at `pos`, the restricted bucket sizes sum to the set size. -/
theorem sum_restrict_eq_card (seqs : List SeqRow) (pos : Nat)
    (hcanon : ∀ i < seqs.length, rowKey seqs pos i ∈ AA_ORDER.map some)
    (S : Finset Nat) (hS : ∀ j ∈ S, j < seqs.length) :
    ((computeConditionalMarginals seqs pos (some S)).map fun e => e.2.count).sum = S.card := by
  rw [counts_sum]
  have hext : ((aasAtPosition seqs pos).map fun aa =>
      (restrictBucket (some S) (bucket seqs pos (some aa))).length).sum
        = ((AA_ORDER).map fun aa =>
          (restrictBucket (some S) (bucket seqs pos (some aa))).length).sum := by
    unfold aasAtPosition
    refine sum_map_filter_of_zero _ _ _ ?_
    intro aa _ hfalse
    have hb : bucket seqs pos (some aa) = [] := by
      by_contra hne
      simp [hne] at hfalse
    rw [hb]
    rfl
  rw [hext]
  -- each restricted bucket counts the fiber of S over the row key
  have hfiber : ∀ aa : Char,
      (restrictBucket (some S) (bucket seqs pos (some aa))).length
        = (S.filter fun j => rowKey seqs pos j = some aa).card := by
    intro aa
    unfold restrictBucket bucket
    rw [List.filter_filter]
    have hcongr : ∀ j ∈ List.range seqs.length,
        ((decide (j ∈ S)) && (decide (keyAt ((seqs.getD j default).seq) pos = some aa)))
          = decide (rowKey seqs pos j = some aa ∧ j ∈ S) := by
      intro j _
      rw [rowKey]
      cases hd : decide (j ∈ S) <;> cases hk : decide (keyAt ((seqs.getD j default).seq) pos = some aa) <;>
        simp_all
    rw [List.filter_congr hcongr,
      length_filter_range_eq_card seqs.length fun j => rowKey seqs pos j = some aa ∧ j ∈ S]
    congr 1
    ext j
    simp only [Finset.mem_filter, Finset.mem_range]
    constructor
    · rintro ⟨-, hk, hj⟩
      exact ⟨hj, hk⟩
    · rintro ⟨hj, hk⟩
      exact ⟨hS j hj, hk, hj⟩
  have hmap : ((AA_ORDER).map fun aa =>
      (restrictBucket (some S) (bucket seqs pos (some aa))).length)
        = (AA_ORDER).map fun aa => (S.filter fun j => rowKey seqs pos j = some aa).card := by
    exact List.map_congr_left fun aa _ => hfiber aa
  rw [hmap]
  -- fiberwise counting over the canonical alphabet
  have hnodup : AA_ORDER.Nodup := by decide
  rw [← List.sum_toFinset _ hnodup]
  have hinj : ∀ x ∈ AA_ORDER.toFinset, ∀ y ∈ AA_ORDER.toFinset,
      (some x : Option Char) = some y → x = y := fun x _ y _ h => Option.some_inj.mp h
  have himg := Finset.sum_image (s := AA_ORDER.toFinset) (g := fun c : Char => (some c : Option Char))
    (f := fun b => (S.filter fun j => rowKey seqs pos j = b).card) hinj
  rw [← himg]
  refine (Finset.card_eq_sum_card_fiberwise ?_).symm
  intro j hj
  have := hcanon j (hS j hj)
  rcases List.mem_map.mp this with ⟨c, hc, hck⟩
  rw [← hck]
  exact Finset.mem_image_of_mem _ (List.mem_toFinset.mpr hc)

end DataProcessor

section C4

open DataProcessor

/-- C4 (confirmed): the sum law.  Over a dataset whose rows all carry
canonical (21-symbol) values at `p`, the per-value counts of
`conditionalMarginals(p, S)` sum to `|S|` for every valid matching set `S`,
and to `totalRowCount` when `S` is Unconstrained; moreover zero-count values
are omitted entirely: every emitted entry has a non-zero count. -/
theorem spec_c4_sum_law (seqs : List SeqRow) (pos : Nat)
    (hcanon : ∀ i < seqs.length, rowKey seqs pos i ∈ AA_ORDER.map some) :
    (∀ S : Finset Nat, (∀ j ∈ S, j < seqs.length) →
        ((computeConditionalMarginals seqs pos (some S)).map fun e => e.2.count).sum
          = S.card) ∧
      ((computeConditionalMarginals seqs pos none).map fun e => e.2.count).sum
        = totalCount seqs ∧
      ∀ (F : Option (Finset Nat)) (e : Char × MarginalStat),
        e ∈ computeConditionalMarginals seqs pos F → e.2.count ≠ 0 := by
  refine ⟨sum_restrict_eq_card seqs pos hcanon, ?_, ?_⟩
  · rw [marginals_none_eq_range]
    rw [sum_restrict_eq_card seqs pos hcanon (Finset.range seqs.length)
      (fun j hj => Finset.mem_range.mp hj)]
    rw [Finset.card_range]
    rfl
  · intro F e he
    rcases List.mem_filterMap.mp he with ⟨aa, -, hsome⟩
    obtain ⟨-, hcount⟩ := marginalFor_count hsome
    have hne : restrictBucket F (bucket seqs pos (some aa)) ≠ [] := by
      intro hempty
      rw [marginalFor_eq_none_iff.mpr hempty] at hsome
      cases hsome
    rw [hcount]
    intro h0
    exact hne (List.length_eq_zero.mp h0)

/-- Witness for C4 at a two-row canonical dataset with `S = {0}`. -/
theorem spec_c4_witness :
    ((∀ i < twoSeqs.length, rowKey twoSeqs 9 i ∈ AA_ORDER.map some) ∧
        (∀ j ∈ ({0} : Finset Nat), j < twoSeqs.length)) ∧
      ((computeConditionalMarginals twoSeqs 9 (some {0})).map fun e => e.2.count).sum
        = ({0} : Finset Nat).card :=
  ⟨⟨by decide, by decide⟩, (spec_c4_sum_law twoSeqs 9 (by decide)).1 {0} (by decide)⟩

end C4

namespace DataProcessor

/-- A value owns a nonempty restricted bucket over `S` exactly when `S`
contains a row carrying it (for valid `S`). -/
theorem restrict_ne_nil_iff (seqs : List SeqRow) (pos : Nat) (S : Finset Nat)
    (hS : ∀ j ∈ S, j < seqs.length) (aa : Char) :
    restrictBucket (some S) (bucket seqs pos (some aa)) ≠ []
      ↔ some aa ∈ S.image fun j => rowKey seqs pos j := by
  constructor
  · intro hne
    obtain ⟨j, hj⟩ := List.exists_mem_of_ne_nil _ hne
    rw [restrictBucket, List.mem_filter] at hj
    obtain ⟨hjb, hjS⟩ := hj
    obtain ⟨-, hk⟩ := mem_bucket.mp hjb
    simp only [decide_eq_true_eq] at hjS
    exact Finset.mem_image.mpr ⟨j, hjS, hk⟩
  · intro h
    rcases Finset.mem_image.mp h with ⟨j, hjS, hk⟩
    refine List.ne_nil_of_mem (a := j) ?_
    rw [restrictBucket, List.mem_filter]
    exact ⟨mem_bucket.mpr ⟨hS j hjS, hk⟩, by simpa using hjS⟩

/-- Counting canonical values present in a set of observed keys. -/
theorem length_filter_mem_eq_card (T : Finset (Option Char))
    (hT : ∀ b ∈ T, ∃ c ∈ AA_ORDER, b = some c) :
    (AA_ORDER.filter fun aa => decide (some aa ∈ T)).length = T.card := by
  have hnodup : (AA_ORDER.filter fun aa => decide (some aa ∈ T)).Nodup :=
    List.Nodup.filter _ (by decide)
  rw [← List.toFinset_card_of_nodup hnodup]
  have himg : ((AA_ORDER.filter fun aa => decide (some aa ∈ T)).toFinset).image
      (fun c : Char => (some c : Option Char)) = T := by
    ext b
    simp only [Finset.mem_image, List.mem_toFinset, List.mem_filter, decide_eq_true_eq]
    constructor
    · rintro ⟨c, ⟨-, hc⟩, rfl⟩
      exact hc
    · intro hb
      rcases hT b hb with ⟨c, hc, rfl⟩
      exact ⟨c, ⟨hc, hb⟩, rfl⟩
  calc ((AA_ORDER.filter fun aa => decide (some aa ∈ T)).toFinset).card
      = (((AA_ORDER.filter fun aa => decide (some aa ∈ T)).toFinset).image
          (fun c : Char => (some c : Option Char))).card :=
        (Finset.card_image_of_injective _ (Option.some_injective Char)).symm
    _ = T.card := by rw [himg]

/-- numAAs over a valid matching set counts the distinct observed values. -/
theorem numAAs_eq_image_card (seqs : List SeqRow) (pos : Nat)
    (hcanon : ∀ i < seqs.length, rowKey seqs pos i ∈ AA_ORDER.map some)
    (S : Finset Nat) (hS : ∀ j ∈ S, j < seqs.length) :
    (computePositionEntropy seqs (some S) pos).numAAs
      = (S.image fun j => rowKey seqs pos j).card := by
  show (computeConditionalMarginals seqs pos (some S)).length = _
  rw [marginals_length]
  unfold aasAtPosition
  rw [List.filter_filter]
  have hcongr : ∀ aa ∈ AA_ORDER,
      ((decide (restrictBucket (some S) (bucket seqs pos (some aa)) ≠ []))
          && (decide (bucket seqs pos (some aa) ≠ [])))
        = decide (some aa ∈ S.image fun j => rowKey seqs pos j) := by
    intro aa _
    have hiff := restrict_ne_nil_iff seqs pos S hS aa
    by_cases hr : restrictBucket (some S) (bucket seqs pos (some aa)) = []
    · have hnot : ¬ some aa ∈ S.image fun j => rowKey seqs pos j := fun h => hiff.mpr h hr
      simp [hr, hnot]
    · have hb : bucket seqs pos (some aa) ≠ [] := by
        intro hempty
        apply hr
        rw [restrictBucket, hempty]
        rfl
      simp [hr, hb, hiff.mp hr]
  rw [List.filter_congr hcongr]
  refine length_filter_mem_eq_card _ ?_
  intro b hb
  rcases Finset.mem_image.mp hb with ⟨j, hjS, hk⟩
  have := hcanon j (hS j hjS)
  rcases List.mem_map.mp this with ⟨c, hc, hck⟩
  exact ⟨c, hc, by rw [← hk, ← hck]⟩

end DataProcessor

section C2

open DataProcessor

/-- C2 (counterexample): over a two-row dataset with values `C` and `K` at
position 9 and the matching set `{0}`, the code reports
`maxEntropy = log2(numAAs of the filtered marginals) = log2 1 = 0`, while the
claim demands `log2` of the unfiltered distinct count, `log2 2 = 1`. -/
theorem spec_c2_counterexample :
    Real.logb 2 ((computePositionEntropy twoSeqs (some {0}) 9).numAAs : ℝ)
      ≠ Real.logb 2 ((specDistinctCount twoSeqs 9 : ℕ) : ℝ) := by
  have h1 : (computePositionEntropy twoSeqs (some {0}) 9).numAAs = 1 := by decide
  have h2 : specDistinctCount twoSeqs 9 = 2 := by decide
  rw [h1, h2]
  have hl1 : Real.logb 2 ((1 : ℕ) : ℝ) = 0 := by
    norm_num
  have hl2 : Real.logb 2 ((2 : ℕ) : ℝ) = 1 := by
    norm_num
  rw [hl1, hl2]
  norm_num

/-- C2 (amended): the reported maximum entropy is `log2 k` where `k` is the
number of distinct values with non-zero count in the *filtered* matching set
(`numAAs`), not the unfiltered count: over a canonical dataset, `numAAs`
equals the number of distinct observed values among the rows of the matching
set, and only for the Unconstrained set does it equal the unfiltered distinct
count. -/
theorem spec_c2_amended (seqs : List SeqRow) (pos : Nat)
    (hcanon : ∀ i < seqs.length, rowKey seqs pos i ∈ AA_ORDER.map some) :
    (∀ S : Finset Nat, (∀ j ∈ S, j < seqs.length) →
        (computePositionEntropy seqs (some S) pos).numAAs
          = (S.image fun j => rowKey seqs pos j).card) ∧
      (computePositionEntropy seqs none pos).numAAs = specDistinctCount seqs pos := by
  refine ⟨numAAs_eq_image_card seqs pos hcanon, ?_⟩
  show (computeConditionalMarginals seqs pos none).length = _
  rw [marginals_none_eq_range]
  exact numAAs_eq_image_card seqs pos hcanon (Finset.range seqs.length)
    (fun j hj => Finset.mem_range.mp hj)

/-- Witness for the amended C2 at the two-row dataset with `S = {0}`. -/
theorem spec_c2_amended_witness :
    ((∀ i < twoSeqs.length, rowKey twoSeqs 9 i ∈ AA_ORDER.map some) ∧
        (∀ j ∈ ({0} : Finset Nat), j < twoSeqs.length)) ∧
      (computePositionEntropy twoSeqs (some {0}) 9).numAAs
        = (({0} : Finset Nat).image fun j => rowKey twoSeqs 9 j).card :=
  ⟨⟨by decide, by decide⟩, (spec_c2_amended twoSeqs 9 (by decide)).1 {0} (by decide)⟩

end C2

namespace JsStr

theorem jsSplit_ne_nil (sep : Char) (l : List Char) : jsSplit sep l ≠ [] := by
  cases l with
  | nil => simp [jsSplit]
  | cons c rest =>
    rw [jsSplit]
    by_cases h : c = sep
    · simp [h]
    · rw [if_neg h]
      cases jsSplit sep rest <;> simp

theorem jsSplit_eq_single {sep : Char} : ∀ {l : List Char}, sep ∉ l → jsSplit sep l = [l] := by
  intro l
  induction l with
  | nil => intro _; rfl
  | cons c rest ih =>
    intro h
    have hc : ¬ c = sep := fun hc => h (hc ▸ List.mem_cons_self c rest)
    rw [jsSplit, ih (fun hm => h (List.mem_cons_of_mem c hm)), if_neg hc]

theorem jsSplit_append {sep : Char} :
    ∀ {l1 : List Char} (l2 : List Char), sep ∉ l1 →
      jsSplit sep (l1 ++ sep :: l2) = l1 :: jsSplit sep l2 := by
  intro l1
  induction l1 with
  | nil =>
    intro l2 _
    show jsSplit sep (sep :: l2) = [] :: jsSplit sep l2
    rw [jsSplit, if_pos rfl]
  | cons c rest ih =>
    intro l2 h
    have hc : ¬ c = sep := fun hc => h (hc ▸ List.mem_cons_self c rest)
    show jsSplit sep (c :: (rest ++ sep :: l2)) = (c :: rest) :: jsSplit sep l2
    rw [jsSplit, ih l2 (fun hm => h (List.mem_cons_of_mem c hm)), if_neg hc]

theorem intercalate_cons_cons (s : Char) (a b : List Char) (l : List (List Char)) :
    List.intercalate [s] (a :: b :: l) = a ++ s :: List.intercalate [s] (b :: l) := by
  simp [List.intercalate, List.intersperse]

theorem intercalate_single (s : Char) (a : List Char) : List.intercalate [s] [a] = a := by
  simp [List.intercalate, List.intersperse]

theorem jsSplit_intercalate {sep : Char} :
    ∀ {parts : List (List Char)}, parts ≠ [] → (∀ p ∈ parts, sep ∉ p) →
      jsSplit sep (List.intercalate [sep] parts) = parts := by
  intro parts
  induction parts with
  | nil => intro h; exact absurd rfl h
  | cons p rest ih =>
    intro _ hall
    cases rest with
    | nil =>
      rw [intercalate_single]
      exact jsSplit_eq_single (hall p (List.mem_cons_self p []))
    | cons q rest2 =>
      rw [intercalate_cons_cons, jsSplit_append _ (hall p (List.mem_cons_self p _)),
        ih (by simp) (fun r hr => hall r (List.mem_cons_of_mem p hr))]

theorem mem_intercalate {ch s : Char} :
    ∀ {parts : List (List Char)}, ch ∈ List.intercalate [s] parts →
      ch = s ∨ ∃ p ∈ parts, ch ∈ p := by
  intro parts
  induction parts with
  | nil => intro h; simp [List.intercalate, List.intersperse] at h
  | cons p rest ih =>
    intro h
    cases rest with
    | nil =>
      rw [intercalate_single] at h
      exact Or.inr ⟨p, List.mem_cons_self p [], h⟩
    | cons q rest2 =>
      rw [intercalate_cons_cons] at h
      rcases List.mem_append.mp h with h1 | h2
      · exact Or.inr ⟨p, List.mem_cons_self p _, h1⟩
      · rcases List.mem_cons.mp h2 with rfl | h3
        · exact Or.inl rfl
        · rcases ih h3 with h4 | ⟨r, hr, hchr⟩
          · exact Or.inl h4
          · exact Or.inr ⟨r, List.mem_cons_of_mem p hr, hchr⟩

theorem utf8Bytes_ascii {c : Char} (h : c.toNat < 0x80) : utf8Bytes c = [c.toNat] := by
  rw [utf8Bytes]
  simp [h]

theorem formDecodeBytes_plain :
    ∀ {l : List Char}, (∀ ch ∈ l, ch ≠ '%' ∧ ch ≠ '+' ∧ ch.toNat < 0x80) →
      formDecodeBytes l = l.map Char.toNat := by
  intro l
  induction l with
  | nil => intro _; rw [formDecodeBytes.eq_def]; rfl
  | cons c rest ih =>
    intro h
    obtain ⟨hp, hplus, hascii⟩ := h c (List.mem_cons_self c rest)
    rw [formDecodeBytes.eq_def]
    simp only [if_neg hplus, if_neg hp]
    rw [utf8Bytes_ascii hascii, ih (fun ch hm => h ch (List.mem_cons_of_mem c hm))]
    rfl

theorem utf8Step_ascii {b : Nat} (rest : List Nat) (h : b < 0x80) :
    utf8Step b rest = some (Char.ofNat b, rest) := by
  unfold utf8Step
  rw [if_pos h]

theorem utf8DecodeLenient_ascii :
    ∀ {bs : List Nat}, (∀ b ∈ bs, b < 0x80) → utf8DecodeLenient bs = bs.map Char.ofNat := by
  intro bs
  induction bs with
  | nil => intro _; rw [utf8DecodeLenient.eq_def]; rfl
  | cons b rest ih =>
    intro h
    have hstep := utf8Step_ascii rest (h b (List.mem_cons_self b rest))
    rw [utf8DecodeLenient.eq_def]
    simp only [hstep, Option.isSome_some, Option.get_some, dite_true]
    rw [ih (fun b2 hm => h b2 (List.mem_cons_of_mem b hm))]
    rfl

theorem formDecode_plain {l : List Char}
    (h : ∀ ch ∈ l, ch ≠ '%' ∧ ch ≠ '+' ∧ ch.toNat < 0x80) : formDecode l = l := by
  rw [formDecode, formDecodeBytes_plain h,
    utf8DecodeLenient_ascii (by intro b hb; rcases List.mem_map.mp hb with ⟨c, hc, rfl⟩; exact (h c hc).2.2),
    List.map_map]
  conv_rhs => rw [← List.map_id l]
  exact List.map_congr_left fun c _ => Char.ofNat_toNat c

theorem percentDecodeBytes_plain :
    ∀ {l : List Char}, (∀ ch ∈ l, ch ≠ '%' ∧ ch.toNat < 0x80) →
      percentDecodeBytes l = some (l.map Char.toNat) := by
  intro l
  induction l with
  | nil => intro _; rfl
  | cons c rest ih =>
    intro h
    obtain ⟨hp, hascii⟩ := h c (List.mem_cons_self c rest)
    rw [percentDecodeBytes.eq_def]
    simp only [if_neg hp]
    rw [ih (fun ch hm => h ch (List.mem_cons_of_mem c hm)), utf8Bytes_ascii hascii]
    rfl

theorem utf8Decode_ascii :
    ∀ {bs : List Nat}, (∀ b ∈ bs, b < 0x80) → utf8Decode bs = some (bs.map Char.ofNat) := by
  intro bs
  induction bs with
  | nil => intro _; rw [utf8Decode.eq_def]; rfl
  | cons b rest ih =>
    intro h
    have hstep := utf8Step_ascii rest (h b (List.mem_cons_self b rest))
    rw [utf8Decode.eq_def]
    simp only [hstep, Option.isSome_some, Option.get_some, dite_true]
    rw [ih (fun b2 hm => h b2 (List.mem_cons_of_mem b hm))]
    rfl

theorem decodeURIComponentOpt_plain {l : List Char}
    (h : ∀ ch ∈ l, ch ≠ '%' ∧ ch.toNat < 0x80) : decodeURIComponentOpt l = some l := by
  rw [decodeURIComponentOpt, percentDecodeBytes_plain h]
  show utf8Decode (l.map Char.toNat) = some l
  rw [utf8Decode_ascii (by intro b hb; rcases List.mem_map.mp hb with ⟨c, hc, rfl⟩; exact (h c hc).2),
    List.map_map]
  congr 1
  conv_rhs => rw [← List.map_id l]
  exact List.map_congr_left fun c _ => Char.ofNat_toNat c

theorem splitFirstEq_append :
    ∀ {l1 : List Char} (l2 : List Char), '=' ∉ l1 →
      splitFirstEq (l1 ++ '=' :: l2) = (l1, l2) := by
  intro l1
  induction l1 with
  | nil =>
    intro l2 _
    show splitFirstEq ('=' :: l2) = ([], l2)
    rw [splitFirstEq, if_pos rfl]
  | cons c rest ih =>
    intro l2 h
    have hc : ¬ c = '=' := fun hc => h (hc ▸ List.mem_cons_self c rest)
    show splitFirstEq (c :: (rest ++ '=' :: l2)) = (c :: rest, l2)
    rw [splitFirstEq, if_neg hc, ih l2 (fun hm => h (List.mem_cons_of_mem c hm))]

/-- Parsing the fragment written by `saveHash`: a single `filters=...`
parameter whose value contains no `&`, `%`, `+` and only ASCII comes back
verbatim. -/
theorem urlParamsGet_filters {l2 : List Char}
    (h : ∀ ch ∈ l2, ch ≠ '&' ∧ ch ≠ '%' ∧ ch ≠ '+' ∧ ch.toNat < 0x80) :
    urlParamsGet ("filters=".data ++ l2) "filters".data = some l2 := by
  have hamp : '&' ∉ ("filters=".data ++ l2) := by
    intro hm
    rcases List.mem_append.mp hm with h1 | h2
    · exact absurd h1 (by decide)
    · exact (h _ h2).1 rfl
  have heq : ("filters=".data ++ l2) = "filters".data ++ '=' :: l2 := rfl
  have hname : formDecode "filters".data = "filters".data :=
    formDecode_plain (by decide)
  have hval : formDecode l2 = l2 :=
    formDecode_plain (fun ch hm => ⟨(h ch hm).2.1, (h ch hm).2.2.1, (h ch hm).2.2.2⟩)
  rw [urlParamsGet, jsSplit_eq_single hamp]
  rw [List.filter_cons, if_pos (by simp), List.filter_nil, List.map_cons, List.map_nil]
  rw [heq, splitFirstEq_append l2 (by decide)]
  simp only [hname, hval]
  rw [List.find?_cons_of_pos _ (by simp)]
  rfl

end JsStr

namespace App

open DataProcessor JsStr

theorem applyListF_cons (f : Filters) (pos : Nat) (ps : List Nat) (g : Filters) :
    applyListF f (pos :: ps) g
      = applyListF f ps
          (match f.get pos with
           | none => g
           | some v => g.set pos (some v)) := rfl

theorem aa_char_facts {c : Char} (hc : c ∈ AA_ORDER) :
    isUnreserved c = true ∧ c ≠ ',' ∧ c ≠ ':' ∧ c ≠ '&' ∧ c ≠ '%' ∧ c ≠ '+' ∧
      c.toNat < 0x80 := by
  simp only [AA_ORDER, List.mem_cons, List.not_mem_nil, or_false] at hc
  rcases hc with rfl | rfl | rfl | rfl | rfl | rfl | rfl | rfl | rfl | rfl | rfl | rfl | rfl |
    rfl | rfl | rfl | rfl | rfl | rfl | rfl | rfl <;> decide

theorem encodeURIComponent_single {c : Char} (hc : c ∈ AA_ORDER) :
    encodeURIComponent [c] = [c] := by
  have h := (aa_char_facts hc).1
  simp [encodeURIComponent, h]

theorem decodeURIComponent_single {c : Char} (hc : c ∈ AA_ORDER) :
    decodeURIComponentOpt [c] = some [c] := by
  obtain ⟨-, -, -, -, hpct, -, hascii⟩ := aa_char_facts hc
  exact decodeURIComponentOpt_plain (by
    intro ch hm
    rw [List.mem_singleton] at hm
    subst hm
    exact ⟨hpct, hascii⟩)

theorem repr_pos_facts {pos : Nat} (hpos : pos ∈ VARIABLE_POSITIONS) :
    (Nat.repr pos).data ≠ [] ∧ ':' ∉ (Nat.repr pos).data ∧
      parseIntJS (Nat.repr pos).data = some (pos : Int) ∧
      (∀ ch ∈ (Nat.repr pos).data, ch ≠ '&' ∧ ch ≠ '%' ∧ ch ≠ '+' ∧ ch.toNat < 0x80 ∧
        ch ≠ ',') := by
  simp only [VARIABLE_POSITIONS, List.mem_cons, List.not_mem_nil, or_false] at hpos
  rcases hpos with rfl | rfl | rfl | rfl <;> exact ⟨by decide, by decide, by decide, by decide⟩

/-- Applying one saved `position:value` pair. -/
theorem applyPairs_cons_part {pos : Nat} (hpos : pos ∈ VARIABLE_POSITIONS) {c : Char}
    (hc : c ∈ AA_ORDER) (rest : List (List Char)) (g : Filters) :
    applyPairs (hashPart pos [c] :: rest) g = applyPairs rest (g.set pos (some [c])) := by
  obtain ⟨-, -, hcolon, -, -, -, -⟩ := aa_char_facts hc
  obtain ⟨-, hnc, hparse, -⟩ := repr_pos_facts hpos
  have hpart : hashPart pos [c] = (Nat.repr pos).data ++ ':' :: [c] := by
    rw [hashPart, encodeURIComponent_single hc]
  have hsplit : jsSplit ':' ((Nat.repr pos).data ++ ':' :: [c]) = [(Nat.repr pos).data, [c]] := by
    rw [jsSplit_append _ hnc, jsSplit_eq_single (by
      intro hm
      rw [List.mem_singleton] at hm
      exact hcolon hm.symm)]
  rw [applyPairs, hpart, hsplit]
  simp only [List.getD_cons_zero, List.getD_cons_succ, hparse]
  have hmemb : Int.ofNat pos ∈ VARIABLE_POSITIONS.map Int.ofNat :=
    List.mem_map.mpr ⟨pos, hpos, rfl⟩
  simp [hmemb, decodeURIComponent_single hc]
  exact fun habs => absurd hpos habs

/-- Replaying all saved pairs of a canonical filter map. -/
theorem applyPairs_filterMap (f : Filters) (hcf : CanonicalFilters f) :
    ∀ (ps : List Nat) (g : Filters), (∀ pos ∈ ps, pos ∈ VARIABLE_POSITIONS) →
      applyPairs (ps.filterMap fun pos => (f.get pos).map fun v => hashPart pos v) g
        = some (applyListF f ps g) := by
  intro ps
  induction ps with
  | nil => intro g _; rfl
  | cons pos rest ih =>
    intro g hmem
    rw [List.filterMap_cons, applyListF_cons]
    cases hv : f.get pos with
    | none =>
      simp only [Option.map_none']
      exact ih g fun q hq => hmem q (List.mem_cons_of_mem pos hq)
    | some v =>
      obtain ⟨ch, hch, rfl⟩ := hcf pos v hv
      simp only [Option.map_some']
      rw [applyPairs_cons_part (hmem pos (List.mem_cons_self pos rest)) hch]
      exact ih (g.set pos (some [ch])) fun q hq => hmem q (List.mem_cons_of_mem pos hq)

theorem applyListF_init (f : Filters) :
    applyListF f VARIABLE_POSITIONS ⟨none, none, none, none⟩ = f := by
  obtain ⟨f9, f12, f13, f16⟩ := f
  cases f9 <;> cases f12 <;> cases f13 <;> cases f16 <;> rfl

theorem hashPart_chars {pos : Nat} (hpos : pos ∈ VARIABLE_POSITIONS) {c : Char}
    (hc : c ∈ AA_ORDER) :
    ∀ ch ∈ hashPart pos [c],
      (ch ≠ '&' ∧ ch ≠ '%' ∧ ch ≠ '+' ∧ ch.toNat < 0x80) ∧ ch ≠ ',' := by
  obtain ⟨-, hcomma, -, hamp, hpct, hplus, hascii⟩ := aa_char_facts hc
  obtain ⟨-, -, -, hchars⟩ := repr_pos_facts hpos
  intro ch hch
  rw [hashPart, encodeURIComponent_single hc] at hch
  rcases List.mem_append.mp hch with h1 | h2
  · obtain ⟨a, b, cc, d, e⟩ := hchars ch h1
    exact ⟨⟨a, b, cc, d⟩, e⟩
  · rcases List.mem_cons.mp h2 with rfl | h3
    · exact ⟨⟨by decide, by decide, by decide, by decide⟩, by decide⟩
    · rw [List.mem_singleton] at h3
      subst h3
      exact ⟨⟨hamp, hpct, hplus, hascii⟩, hcomma⟩

theorem hashParts_facts (f : Filters) (hcf : CanonicalFilters f) :
    ∀ p ∈ hashParts f, p ≠ [] ∧
      ∀ ch ∈ p, (ch ≠ '&' ∧ ch ≠ '%' ∧ ch ≠ '+' ∧ ch.toNat < 0x80) ∧ ch ≠ ',' := by
  intro p hp
  rw [hashParts, List.mem_filterMap] at hp
  obtain ⟨pos, hpos, hsome⟩ := hp
  cases hv : f.get pos with
  | none => rw [hv] at hsome; cases hsome
  | some v =>
    rw [hv, Option.map_some'] at hsome
    obtain ⟨ch, hch, rfl⟩ := hcf pos v hv
    obtain rfl := Option.some_inj.mp hsome
    constructor
    · obtain ⟨hne, -, -, -⟩ := repr_pos_facts hpos
      rw [hashPart]
      intro habs
      exact hne (List.append_eq_nil.mp habs).1
    · exact hashPart_chars hpos hch

end App

section C5

open DataProcessor App JsStr

/-- C5 (confirmed): the persistence round trip.  For every filter state whose
selected values are canonical single symbols, serializing via `saveHash` and
restoring via `loadHash` from a fresh state succeeds (no parse error),
reconstructs the same filter map, and yields a stored matching set equal to
the resolution of the pre-serialization filter state. -/
theorem spec_c5_roundtrip (seqs : List SeqRow) (f : Filters) (hcf : CanonicalFilters f) :
    ∃ s', loadHash seqs (saveHash f) initialState = some s' ∧
      s'.filters = f ∧ s'.filteredIndices = getFilteredIndices seqs f := by
  by_cases hparts : hashParts f = []
  · have hnone : ∀ pos ∈ VARIABLE_POSITIONS, f.get pos = none := by
      intro pos hpos
      cases hv : f.get pos with
      | none => rfl
      | some v =>
        exfalso
        have hmem : hashPart pos v ∈ hashParts f :=
          List.mem_filterMap.mpr ⟨pos, hpos, by rw [hv]; rfl⟩
        rw [hparts] at hmem
        exact List.not_mem_nil _ hmem
    obtain ⟨f9, f12, f13, f16⟩ := f
    have h9 : f9 = none := hnone 9 (by decide)
    have h12 : f12 = none := hnone 12 (by decide)
    have h13 : f13 = none := hnone 13 (by decide)
    have h16 : f16 = none := hnone 16 (by decide)
    subst h9; subst h12; subst h13; subst h16
    exact ⟨initialState, rfl, rfl, rfl⟩
  · have hfacts := hashParts_facts f hcf
    have hchars : ∀ ch ∈ List.intercalate [','] (hashParts f),
        ch ≠ '&' ∧ ch ≠ '%' ∧ ch ≠ '+' ∧ ch.toNat < 0x80 := by
      intro ch hch
      rcases mem_intercalate hch with rfl | ⟨p, hp, hchp⟩
      · exact ⟨by decide, by decide, by decide, by decide⟩
      · exact ((hfacts p hp).2 ch hchp).1
    have hfsne : List.intercalate [','] (hashParts f) ≠ [] := by
      obtain ⟨p0, parts0, hps⟩ : ∃ p0 parts0, hashParts f = p0 :: parts0 := by
        cases hcase : hashParts f with
        | nil => exact absurd hcase hparts
        | cons a b => exact ⟨a, b, rfl⟩
      have hp0 : p0 ∈ hashParts f := by rw [hps]; exact List.mem_cons_self _ _
      rw [hps]
      cases parts0 with
      | nil =>
        rw [intercalate_single]
        exact (hfacts p0 hp0).1
      | cons q r =>
        rw [intercalate_cons_cons]
        intro habs
        exact (hfacts p0 hp0).1 (List.append_eq_nil.mp habs).1
    have hsave : saveHash f = "filters=".data ++ List.intercalate [','] (hashParts f) := by
      rw [saveHash]
      simp only [if_neg hfsne]
    have hsplit : jsSplit ',' (List.intercalate [','] (hashParts f)) = hashParts f :=
      jsSplit_intercalate hparts (fun p hp hm => ((hfacts p hp).2 ',' hm).2 rfl)
    have happ : applyPairs (hashParts f) initialState.filters = some f := by
      have h1 := applyPairs_filterMap f hcf VARIABLE_POSITIONS
        ⟨none, none, none, none⟩ (fun _ h => h)
      rw [applyListF_init] at h1
      exact h1
    rw [loadHash, if_neg (by rw [hsave]; simp), hsave, urlParamsGet_filters hchars]
    simp only [hsplit, happ]
    exact ⟨_, rfl, rfl, rfl⟩

end C5

section C9

open DataProcessor App JsStr

/-- C9 (confirmed): every coordinator operation preserves the consistency
invariant — `setFilter`/`clearFilter` recompute the matching set from the
mutated map, `clearAllFilters` resets both coherently, restore recomputes
after applying the saved pairs — and `setSort`, `setSearch`, `setHideStops`,
`setColorScale` change neither the filter map nor the matching set. -/
theorem spec_c9_invariant (seqs : List SeqRow) (s : AppState) (h : Consistent seqs s) :
    (∀ pos aa, Consistent seqs (setFilter seqs s pos aa)) ∧
      (∀ pos, Consistent seqs (clearFilter seqs s pos)) ∧
      Consistent seqs (clearAllFilters s) ∧
      (∀ a b, Consistent seqs (setSort s a b) ∧ (setSort s a b).filters = s.filters ∧
        (setSort s a b).filteredIndices = s.filteredIndices) ∧
      (∀ q, Consistent seqs (setSearch s q) ∧ (setSearch s q).filters = s.filters ∧
        (setSearch s q).filteredIndices = s.filteredIndices) ∧
      (∀ b, Consistent seqs (setHideStops s b) ∧ (setHideStops s b).filters = s.filters ∧
        (setHideStops s b).filteredIndices = s.filteredIndices) ∧
      (∀ cs, Consistent seqs (setColorScale s cs) ∧ (setColorScale s cs).filters = s.filters ∧
        (setColorScale s cs).filteredIndices = s.filteredIndices) ∧
      (∀ hash s', loadHash seqs hash s = some s' → Consistent seqs s') := by
  refine ⟨fun pos aa => rfl, fun pos => rfl, rfl, fun a b => ⟨h, rfl, rfl⟩,
    fun q => ⟨h, rfl, rfl⟩, fun b => ⟨h, rfl, rfl⟩, fun cs => ⟨h, rfl, rfl⟩, ?_⟩
  intro hash s' hload
  rw [loadHash] at hload
  by_cases hh : hash = []
  · rw [if_pos hh] at hload
    cases hload
    exact h
  · rw [if_neg hh] at hload
    cases hq : urlParamsGet hash "filters".data with
    | none =>
      simp only [hq] at hload
      cases hload
      exact h
    | some fs =>
      simp only [hq] at hload
      cases hap : applyPairs (jsSplit ',' fs) s.filters with
      | none => simp only [hap] at hload; cases hload
      | some fnew =>
        simp only [hap] at hload
        cases hload
        rfl

/-- Witness for C9 at a concrete consistent state and one mutation. -/
theorem spec_c9_witness :
    Consistent twoSeqs initialState ∧
      Consistent twoSeqs (setFilter twoSeqs initialState 9 ['C']) :=
  ⟨rfl, (spec_c9_invariant twoSeqs initialState rfl).1 9 ['C']⟩

end C9

section C5W

open DataProcessor App JsStr

theorem canonicalTestFilters_canonical : CanonicalFilters canonicalTestFilters := by
  intro pos v h
  unfold Filters.get canonicalTestFilters at h
  split at h
  · cases h
    exact ⟨'C', by decide, rfl⟩
  · cases h
  · cases h
    exact ⟨'*', by decide, rfl⟩
  · cases h
  · cases h

/-- Witness for C5 at a concrete canonical filter state. -/
theorem spec_c5_witness :
    CanonicalFilters canonicalTestFilters ∧
      ∃ s', loadHash twoSeqs (saveHash canonicalTestFilters) initialState = some s' ∧
        s'.filters = canonicalTestFilters ∧
        s'.filteredIndices = getFilteredIndices twoSeqs canonicalTestFilters :=
  ⟨canonicalTestFilters_canonical,
    spec_c5_roundtrip twoSeqs canonicalTestFilters canonicalTestFilters_canonical⟩

end C5W

section C10W

open DataProcessor App

/-- Witness for C10 at the too-short row (id 1) of `mixedSeqs`. -/
theorem spec_c10_witness :
    (mixedSeqs.get? 1 = some (mixedSeqs.getD 1 default) ∧
        rowKey mixedSeqs 9 1 ∉ AA_ORDER.map some) ∧
      (1 < mixedSeqs.length ∧
        1 ∈ bucket mixedSeqs 9 (rowKey mixedSeqs 9 1) ∧
        getFilteredIndices mixedSeqs ⟨none, none, none, none⟩ = none ∧
        (∀ aa ∈ aasAtPosition mixedSeqs 9, 1 ∉ bucket mixedSeqs 9 (some aa)) ∧
        (∀ S : Finset Nat,
          computeConditionalMarginals mixedSeqs 9 (some S)
            = computeConditionalMarginals mixedSeqs 9 (some (S.erase 1))) ∧
        (rowKey mixedSeqs 9 1 = none → posVal (mixedSeqs.getD 1 default).seq 9 = [])) :=
  ⟨⟨by decide, by decide⟩,
    spec_c10_noncanonical_row mixedSeqs 9 1 (mixedSeqs.getD 1 default) (by decide) (by decide)⟩

end C10W
